import Mathlib

/-!
Verification of the image-tagger pipeline: a shallow embedding of the
tag reducer (`collectUniqueTags`), the tile sweep (`cropImage`), the
free-text summary-response parser (`sendSummaryRequest`), and the
summary/tag fan-out of `main`, together with proofs of the specified
properties.
-/

/-! ### Tag reducer (cmd tag main.go, `collectUniqueTags`)

`collectUniqueTags` drains a channel of `VisionModelTags` messages and
folds every contained `VisionModelTag` into a `map[string]VisionModelTag`
keyed by tag name, keeping an observation only when its confidence is at
least `confidenceThreshold` and replacing an existing entry only when the
new confidence is strictly greater.  The Go map is modelled as an
association list of tags with pairwise-distinct `object` fields; the
channel contents are modelled as the list of messages in arrival order. -/

/-- Go: `const confidenceThreshold = 50`. -/
def confidenceThreshold : Int := 50

/-- Go: `type VisionModelTag struct { Object string; Confidence int }`. -/
structure VisionModelTag where
  object : String
  confidence : Int
deriving DecidableEq

/-- Go: `type VisionModelTags struct { Subject string; Tags []VisionModelTag }`. -/
structure VisionModelTags where
  subject : String
  tags : List VisionModelTag
deriving DecidableEq

/-- Go map read `existingTag, exists := tagMap[tag.Object]`: the entry of the
association list whose `object` field is `name`, if any. -/
def findTag (tagMap : List VisionModelTag) (name : String) : Option VisionModelTag :=
  tagMap.find? (fun e => e.object == name)

/-- Go map write `tagMap[tag.Object] = tag` when the key is already present:
overwrite the entry holding that key. -/
def replaceTag (tagMap : List VisionModelTag) (tag : VisionModelTag) : List VisionModelTag :=
  tagMap.map (fun e => if e.object == tag.object then tag else e)

/-- One iteration of the inner loop of `collectUniqueTags`:
`if tag.Confidence >= confidenceThreshold { if existingTag, exists := tagMap[tag.Object];
!exists || tag.Confidence > existingTag.Confidence { tagMap[tag.Object] = tag } }`. -/
def processTag (tagMap : List VisionModelTag) (tag : VisionModelTag) : List VisionModelTag :=
  if confidenceThreshold ≤ tag.confidence then
    match findTag tagMap tag.object with
    | none => tagMap ++ [tag]
    | some existing =>
      if existing.confidence < tag.confidence then replaceTag tagMap tag else tagMap
  else tagMap

/-- Go `collectUniqueTags`: fold every tag of every channel message into the
map, starting from the empty map.  (The final conversion of the map to a
slice iterates the Go map in unspecified order; the association list keeps
first-insertion order, and all claims are stated per key.) -/
def collectUniqueTags (summaries : List VisionModelTags) : List VisionModelTag :=
  summaries.foldl (fun tagMap summary => summary.tags.foldl processTag tagMap) []

/-- The flattened sequence of tag observations carried by the messages, in
arrival order. -/
def observations (summaries : List VisionModelTags) : List VisionModelTag :=
  (summaries.map VisionModelTags.tags).flatten

/-! ### Tile sweep (internal/imagetiler/imagetiler.go, `cropImage`)

`cropImage` receives the (possibly resized) source image and the configured
crop width/height.  If both source dimensions are at most the crop
dimensions it returns the whole image as the single tile.  Otherwise it
sweeps `y` from 0 by `heightStep = int(float64(cropHeight)*0.5)` while
`y < imgHeight-heightStep`, and `x` likewise, emitting the rectangle
`image.Rect(x, y, min(x+cropWidth, imgWidth), min(y+cropHeight, imgHeight))`
at each step.  Dimensions are Go `int`s, non-negative for any decoded image,
and are modelled as `Nat`; for `0 ≤ n < 2^53` the Go expression
`int(float64(n) * 0.5)` is exactly `n / 2` in `Nat` (multiplication of a
float by 0.5 is exact, and the conversion truncates), and the Go loop
condition `y < imgHeight-heightStep` over `int` agrees with the same
formula over `Nat` with truncated subtraction.  The loops are given the
fuel `imgHeight` (resp. `imgWidth`), which strictly exceeds the number of
iterations whenever the step is positive; a zero step (crop dimension 0 or
1) makes the Go loop spin forever, so every theorem about the sweep keeps
the step positive. -/

/-- Go: `image.Rectangle` with `Min = (x0, y0)` and `Max = (x1, y1)`. -/
structure CropRect where
  x0 : Nat
  y0 : Nat
  x1 : Nat
  y1 : Nat
deriving DecidableEq

/-- The rectangle built by one loop body of `cropImage`:
`image.Rect(x, y, min(x+cropWidth, imgWidth), min(y+cropHeight, imgHeight))`. -/
def cropRectAt (imgWidth imgHeight cropWidth cropHeight x y : Nat) : CropRect :=
  ⟨x, y, min (x + cropWidth) imgWidth, min (y + cropHeight) imgHeight⟩

/-- The inner `for x := 0; x < imgWidth-widthStep; x += widthStep` loop of
`cropImage`, at row `y`, started with fuel `imgWidth`. -/
def cropXLoop (imgWidth imgHeight cropWidth cropHeight widthStep y : Nat) :
    Nat → Nat → List CropRect
  | 0, _ => []
  | fuel + 1, x =>
    if x < imgWidth - widthStep then
      cropRectAt imgWidth imgHeight cropWidth cropHeight x y ::
        cropXLoop imgWidth imgHeight cropWidth cropHeight widthStep y fuel (x + widthStep)
    else []

/-- The outer `for y := 0; y < imgHeight-heightStep; y += heightStep` loop of
`cropImage`, started with fuel `imgHeight`; each iteration appends one full
row of rectangles. -/
def cropYLoop (imgWidth imgHeight cropWidth cropHeight widthStep heightStep : Nat) :
    Nat → Nat → List CropRect
  | 0, _ => []
  | fuel + 1, y =>
    if y < imgHeight - heightStep then
      cropXLoop imgWidth imgHeight cropWidth cropHeight widthStep y imgWidth 0 ++
        cropYLoop imgWidth imgHeight cropWidth cropHeight widthStep heightStep fuel (y + heightStep)
    else []

/-- Go `cropImage(img, cropWidth, cropHeight)`, as the list of crop
rectangles it takes sub-images of. -/
def cropImage (imgWidth imgHeight cropWidth cropHeight : Nat) : List CropRect :=
  if imgWidth ≤ cropWidth ∧ imgHeight ≤ cropHeight then
    [⟨0, 0, imgWidth, imgHeight⟩]
  else
    cropYLoop imgWidth imgHeight cropWidth cropHeight (cropWidth / 2) (cropHeight / 2)
      imgHeight 0

/-- The positions a sweep with the stated policy may emit: row `i` at
`y = i * (cropHeight/2)` while `y + step < imgHeight`, column `j` likewise,
each rectangle clamped to the source edge.  Written from the specified
sweep policy, to be compared with `cropImage`. -/
def sweepRectSpec (imgWidth imgHeight cropWidth cropHeight : Nat) (r : CropRect) : Prop :=
  ∃ i j : Nat,
    i * (cropHeight / 2) + cropHeight / 2 < imgHeight ∧
    j * (cropWidth / 2) + cropWidth / 2 < imgWidth ∧
    r = cropRectAt imgWidth imgHeight cropWidth cropHeight
      (j * (cropWidth / 2)) (i * (cropHeight / 2))

/-- The guard of the tile-mode branch of `resizeImage`
(`if imgPixels > options.MaxImagePixels`): the image is resized only when
the pixel count strictly exceeds the configured budget.  The resized
dimensions themselves are computed in `float64` arithmetic
(`math.Sqrt`, float division) and are not modelled. -/
def tileResizeNeeded (imgWidth imgHeight maxImagePixels : Nat) : Bool :=
  decide (maxImagePixels < imgWidth * imgHeight)

/-! ### Free-text summary-response parser (cmd taglist main.go, `sendSummaryRequest`)

The response handler splits the response on `"\n"`, fails when fewer than
two lines result, and otherwise lower-cases the first line, splits it on
`", "`, trims each piece to obtain the tags, and trims the last line to
obtain the caption.  Go strings are modelled as `List Char`;
`strings.ToLower` and `strings.TrimSpace` agree with `Char.toLower` and
`Char.isWhitespace` on ASCII text. -/

/-- Prepend a character to the first piece of a split result (the split
functions below build their result back to front). -/
def consHead (c : Char) : List (List Char) → List (List Char)
  | [] => [[c]]
  | line :: lines => (c :: line) :: lines

/-- Go `strings.Split(response, "\n")`. -/
def splitLines : List Char → List (List Char)
  | [] => [[]]
  | c :: rest =>
    if c = '\n' then [] :: splitLines rest else consHead c (splitLines rest)

/-- Go `strings.Split(line, ", ")`: scan left to right, cutting at each
occurrence of a comma immediately followed by a space. -/
def splitTags : List Char → List (List Char)
  | [] => [[]]
  | [c] => [[c]]
  | c :: d :: rest =>
    if c = ',' ∧ d = ' ' then [] :: splitTags rest
    else consHead c (splitTags (d :: rest))

/-- Go `strings.ToLower` (ASCII). -/
def toLowerChars (s : List Char) : List Char :=
  s.map Char.toLower

/-- Go `strings.TrimSpace` (ASCII whitespace). -/
def trimChars (s : List Char) : List Char :=
  ((s.dropWhile Char.isWhitespace).reverse.dropWhile Char.isWhitespace).reverse

/-- The response handler of `sendSummaryRequest`, restricted to its parsing
of the model response: `none` models the handler returning the error
`summary response is not multi line` (the tile is logged and skipped);
`some (tags, alt)` models the `ImageData` fields it fills in
(`Tags` from the first line, `Alt` from the last line). -/
def parseSummaryResponse (response : List Char) :
    Option (List (List Char) × List Char) :=
  let lines := splitLines response
  if lines.length < 2 then none
  else
    some ((splitTags (toLowerChars lines.headI)).map trimChars,
      trimChars (lines.getLastD []))

/-! ### Summary stage of cmd tag `main` (fan-out in part_004)

`generateImageSummary` launches one goroutine for the summary request over
a buffered channel of size 1 and waits for it.  On a transport error
`ollamaClient.Generate` returns an error, the handler never runs, nothing
is sent, and after `close(results)` the receive `<-results` yields the
zero value `VisionModelSummary{}`.  `main` performs no error check on the
summary: it always proceeds to the tag calls (whose prompt interpolates
`summary.Subject`) and always assembles and writes an `ImageData` result.
The transport outcome is modelled as `Option VisionModelSummary`
(`none` = transport failure, `some` = parsed response), and the per-tile
tag responses as the list of messages that reach the reduction channel. -/

/-- Go: `type VisionModelSummary struct { Subject, Description string }`. -/
structure VisionModelSummary where
  subject : String
  description : String
deriving DecidableEq

/-- Go: `type ImageData struct { File, Subject, Description string;
Tags []VisionModelTag }` (the `Processed time.Time` stamp is wall-clock
metadata and is not modelled). -/
structure ImageData where
  file : String
  subject : String
  description : String
  tags : List VisionModelTag
deriving DecidableEq

/-- Go `generateImageSummary`: the one goroutine either delivers its parsed
summary or, on a failed `Generate` call, only signals the wait group; the
subsequent receive from the closed size-1 channel then returns the zero
value `VisionModelSummary{"", ""}`. -/
def generateImageSummary (response : Option VisionModelSummary) : VisionModelSummary :=
  match response with
  | some s => s
  | none => ⟨"", ""⟩

/-- The result-assembly tail of `main` (cmd tag): take the summary stage
outcome, reduce the per-tile tag responses, and build the `ImageData`
that is marshalled and written for the image.  No branch of `main`
aborts between the summary call and the write. -/
def mainPipeline (file : String) (summaryResponse : Option VisionModelSummary)
    (tagResponses : List VisionModelTags) : ImageData :=
  let summary := generateImageSummary summaryResponse
  { file := file
    subject := summary.subject
    description := summary.description
    tags := collectUniqueTags tagResponses }

/-! ### Invariants used in the proofs -/

/-- The association list holds pairwise-distinct tag names (the key-set
discipline of the Go map). -/
def distinctObjects (tagMap : List VisionModelTag) : Prop :=
  tagMap.Pairwise (fun a b => a.object ≠ b.object)

/-- Loop invariant of `collectUniqueTags`: after folding the observations
`seen` into `tagMap`, the map has distinct keys, every entry passed the
threshold and is a maximal observation of its name, and every observation
that passed the threshold has an entry of its name. -/
def ReducedFor (seen tagMap : List VisionModelTag) : Prop :=
  distinctObjects tagMap ∧
  (∀ t ∈ tagMap, confidenceThreshold ≤ t.confidence ∧ t ∈ seen ∧
    ∀ o ∈ seen, o.object = t.object → o.confidence ≤ t.confidence) ∧
  (∀ o ∈ seen, confidenceThreshold ≤ o.confidence →
    ∃ t ∈ tagMap, t.object = o.object)

/-! ## Properties of the tag reducer -/

theorem findTag_eq_none {tagMap : List VisionModelTag} {name : String} :
    findTag tagMap name = none ↔ ∀ e ∈ tagMap, e.object ≠ name := by
  simp [findTag, List.find?_eq_none]

theorem findTag_mem {tagMap : List VisionModelTag} {name : String}
    {e : VisionModelTag} (h : findTag tagMap name = some e) :
    e ∈ tagMap ∧ e.object = name := by
  have h' : tagMap.find? (fun x => x.object == name) = some e := h
  refine ⟨List.mem_of_find?_eq_some h', ?_⟩
  simpa using List.find?_some h'

theorem findTag_of_mem {tagMap : List VisionModelTag} (hd : distinctObjects tagMap)
    {t : VisionModelTag} (ht : t ∈ tagMap) : findTag tagMap t.object = some t := by
  induction tagMap with
  | nil => cases ht
  | cons x rest ih =>
    rcases List.pairwise_cons.mp hd with ⟨hx, hrest⟩
    rcases List.mem_cons.mp ht with rfl | hmem
    · simp [findTag]
    · have hne : x.object ≠ t.object := hx t hmem
      have htail : findTag rest t.object = some t := ih hrest hmem
      simp only [findTag] at htail ⊢
      rw [List.find?_cons_of_neg _ (by simpa using hne)]
      exact htail

theorem mem_same_object_eq {tagMap : List VisionModelTag} (hd : distinctObjects tagMap)
    {a b : VisionModelTag} (ha : a ∈ tagMap) (hb : b ∈ tagMap)
    (hob : a.object = b.object) : a = b := by
  have h1 := findTag_of_mem hd ha
  have h2 := findTag_of_mem hd hb
  rw [hob, h2] at h1
  exact (Option.some.injEq .. ▸ h1).symm

theorem replaceTag_entry_object (tag e : VisionModelTag) :
    (if e.object == tag.object then tag else e).object = e.object := by
  by_cases h : e.object = tag.object
  · simp [h]
  · simp [h]

theorem distinctObjects_replaceTag {tagMap : List VisionModelTag}
    (hd : distinctObjects tagMap) (tag : VisionModelTag) :
    distinctObjects (replaceTag tagMap tag) := by
  refine List.Pairwise.map _ ?_ hd
  intro a b hab
  rw [replaceTag_entry_object, replaceTag_entry_object]
  exact hab

theorem ReducedFor_processTag {seen tagMap : List VisionModelTag}
    (tag : VisionModelTag) (h : ReducedFor seen tagMap) :
    ReducedFor (seen ++ [tag]) (processTag tagMap tag) := by
  obtain ⟨hdis, hent, hcomp⟩ := h
  by_cases hth : confidenceThreshold ≤ tag.confidence
  · rcases hfind : findTag tagMap tag.object with _ | existing
    · -- the name is new and the observation passes the threshold: insert
      have hnone : ∀ e ∈ tagMap, e.object ≠ tag.object := findTag_eq_none.mp hfind
      have hmap : processTag tagMap tag = tagMap ++ [tag] := by
        simp [processTag, hfind, if_pos hth]
      rw [hmap]
      refine ⟨?_, ?_, ?_⟩
      · refine List.pairwise_append.mpr ⟨hdis, by simp, ?_⟩
        intro a ha b hb
        have hb2 : b = tag := by simpa using hb
        rw [hb2]
        exact hnone a ha
      · intro t ht
        rcases List.mem_append.mp ht with ht | ht
        · obtain ⟨h1, h2, h3⟩ := hent t ht
          refine ⟨h1, List.mem_append_left _ h2, ?_⟩
          intro o ho hobj
          rcases List.mem_append.mp ho with ho | ho
          · exact h3 o ho hobj
          · have ho2 : o = tag := by simpa using ho
            rw [ho2] at hobj
            exact absurd hobj.symm (hnone t ht)
        · have ht2 : t = tag := by simpa using ht
          rw [ht2]
          refine ⟨hth, List.mem_append_right _ (by simp), ?_⟩
          intro o ho hobj
          rcases List.mem_append.mp ho with ho | ho
          · by_cases hoc : confidenceThreshold ≤ o.confidence
            · obtain ⟨e, he, hobj2⟩ := hcomp o ho hoc
              exact absurd (hobj2.trans hobj) (hnone e he)
            · exact le_trans (lt_of_not_le hoc).le hth
          · have ho2 : o = tag := by simpa using ho
            rw [ho2]
      · intro o ho hoc
        rcases List.mem_append.mp ho with ho | ho
        · obtain ⟨e, he, hobj⟩ := hcomp o ho hoc
          exact ⟨e, List.mem_append_left _ he, hobj⟩
        · have ho2 : o = tag := by simpa using ho
          exact ⟨tag, List.mem_append_right _ (by simp), by rw [ho2]⟩
    · -- the name has an entry
      obtain ⟨hex_mem, hex_obj⟩ := findTag_mem hfind
      have huniq : ∀ e ∈ tagMap, e.object = tag.object → e = existing := by
        intro e he hobj
        exact mem_same_object_eq hdis he hex_mem (hobj.trans hex_obj.symm)
      by_cases hgt : existing.confidence < tag.confidence
      · -- strictly better: overwrite the entry
        have hmap : processTag tagMap tag = replaceTag tagMap tag := by
          simp [processTag, hfind, if_pos hth, hgt]
        rw [hmap]
        refine ⟨distinctObjects_replaceTag hdis tag, ?_, ?_⟩
        · intro t ht
          obtain ⟨e, he, hfe⟩ := List.mem_map.mp ht
          by_cases hobj : e.object = tag.object
          · have het : t = tag := by rw [← hfe]; simp [hobj]
            rw [het]
            refine ⟨hth, List.mem_append_right _ (by simp), ?_⟩
            intro o ho hobjo
            rcases List.mem_append.mp ho with ho | ho
            · obtain ⟨_, _, hmax⟩ := hent existing hex_mem
              exact le_trans (hmax o ho (hobjo.trans hex_obj.symm)) hgt.le
            · have ho2 : o = tag := by simpa using ho
              rw [ho2]
          · have het : t = e := by rw [← hfe]; simp [hobj]
            rw [het]
            obtain ⟨h1, h2, h3⟩ := hent e he
            refine ⟨h1, List.mem_append_left _ h2, ?_⟩
            intro o ho hobjo
            rcases List.mem_append.mp ho with ho | ho
            · exact h3 o ho hobjo
            · have ho2 : o = tag := by simpa using ho
              rw [ho2] at hobjo
              exact absurd hobjo.symm hobj
        · intro o ho hoc
          rcases List.mem_append.mp ho with ho | ho
          · obtain ⟨e, he, hobj⟩ := hcomp o ho hoc
            refine ⟨if e.object == tag.object then tag else e,
              List.mem_map_of_mem _ he, ?_⟩
            rw [replaceTag_entry_object]
            exact hobj
          · have ho2 : o = tag := by simpa using ho
            refine ⟨if existing.object == tag.object then tag else existing,
              List.mem_map_of_mem _ hex_mem, ?_⟩
            rw [replaceTag_entry_object, ho2]
            exact hex_obj
      · -- not strictly better: the map is unchanged
        have hmap : processTag tagMap tag = tagMap := by
          simp [processTag, hfind, if_pos hth, hgt]
        rw [hmap]
        refine ⟨hdis, ?_, ?_⟩
        · intro t ht
          obtain ⟨h1, h2, h3⟩ := hent t ht
          refine ⟨h1, List.mem_append_left _ h2, ?_⟩
          intro o ho hobjo
          rcases List.mem_append.mp ho with ho | ho
          · exact h3 o ho hobjo
          · have ho2 : o = tag := by simpa using ho
            rw [ho2] at hobjo
            have ht2 : t = existing := huniq t ht hobjo.symm
            rw [ho2, ht2]
            exact le_of_not_lt hgt
        · intro o ho hoc
          rcases List.mem_append.mp ho with ho | ho
          · exact hcomp o ho hoc
          · have ho2 : o = tag := by simpa using ho
            exact ⟨existing, hex_mem, by rw [ho2]; exact hex_obj⟩
  · -- the observation fails the threshold: dropped, map unchanged
    have hmap : processTag tagMap tag = tagMap := by
      simp [processTag, if_neg hth]
    rw [hmap]
    refine ⟨hdis, ?_, ?_⟩
    · intro t ht
      obtain ⟨h1, h2, h3⟩ := hent t ht
      refine ⟨h1, List.mem_append_left _ h2, ?_⟩
      intro o ho hobjo
      rcases List.mem_append.mp ho with ho | ho
      · exact h3 o ho hobjo
      · have ho2 : o = tag := by simpa using ho
        rw [ho2]
        exact le_trans (lt_of_not_le hth).le h1
    · intro o ho hoc
      rcases List.mem_append.mp ho with ho | ho
      · exact hcomp o ho hoc
      · have ho2 : o = tag := by simpa using ho
        rw [ho2] at hoc
        exact absurd hoc hth

theorem ReducedFor_foldl (obs : List VisionModelTag) :
    ∀ seen tagMap, ReducedFor seen tagMap →
      ReducedFor (seen ++ obs) (obs.foldl processTag tagMap) := by
  induction obs with
  | nil => intro seen tagMap h; simpa using h
  | cons t rest ih =>
    intro seen tagMap h
    have h2 := ih (seen ++ [t]) _ (ReducedFor_processTag t h)
    simpa [List.append_assoc] using h2

theorem collectUniqueTags_eq_foldl (summaries : List VisionModelTags) :
    collectUniqueTags summaries = (observations summaries).foldl processTag [] := by
  suffices h : ∀ (l : List VisionModelTags) (init : List VisionModelTag),
      l.foldl (fun m s => s.tags.foldl processTag m) init =
        ((l.map VisionModelTags.tags).flatten).foldl processTag init by
    simpa [collectUniqueTags, observations] using h summaries []
  intro l
  induction l with
  | nil => intro init; simp
  | cons s rest ih =>
    intro init
    simp only [List.foldl_cons, List.map_cons, List.flatten_cons, List.foldl_append]
    exact ih _

theorem collectUniqueTags_reduced (summaries : List VisionModelTags) :
    ReducedFor (observations summaries) (collectUniqueTags summaries) := by
  rw [collectUniqueTags_eq_foldl]
  have h0 : ReducedFor [] [] := ⟨List.Pairwise.nil, by simp, by simp⟩
  simpa using ReducedFor_foldl (observations summaries) [] [] h0

/-- Claim C1: for every finite sequence of tag observations,
`collectUniqueTags` returns at most one entry per distinct tag name, each
retained entry is one of that name's observations carrying the maximum
confidence observed for the name, no retained entry is below the
threshold (50), and every observation at or above the threshold leaves an
entry of its name. -/
theorem collectUniqueTags_max_per_name (summaries : List VisionModelTags) :
    (∀ t₁ ∈ collectUniqueTags summaries, ∀ t₂ ∈ collectUniqueTags summaries,
      t₁.object = t₂.object → t₁ = t₂) ∧
    (∀ t ∈ collectUniqueTags summaries, confidenceThreshold ≤ t.confidence) ∧
    (∀ t ∈ collectUniqueTags summaries, t ∈ observations summaries ∧
      ∀ o ∈ observations summaries, o.object = t.object →
        o.confidence ≤ t.confidence) ∧
    (∀ o ∈ observations summaries, confidenceThreshold ≤ o.confidence →
      ∃ t ∈ collectUniqueTags summaries, t.object = o.object) := by
  obtain ⟨hdis, hent, hcomp⟩ := collectUniqueTags_reduced summaries
  refine ⟨?_, ?_, ?_, hcomp⟩
  · intro t₁ h₁ t₂ h₂ hobj
    exact mem_same_object_eq hdis h₁ h₂ hobj
  · intro t ht
    exact (hent t ht).1
  · intro t ht
    exact ⟨(hent t ht).2.1, (hent t ht).2.2⟩

/-- Witness for C1 on the specified scenario
`[{"wheel",40},{"wheel",80},{"door",60}]`: the retained wheel entry passes
the threshold. -/
theorem collectUniqueTags_max_per_name_witness :
    confidenceThreshold ≤ (VisionModelTag.mk "wheel" 80).confidence :=
  (collectUniqueTags_max_per_name
      [⟨"", [⟨"wheel", 40⟩, ⟨"wheel", 80⟩, ⟨"door", 60⟩]⟩]).2.1
    ⟨"wheel", 80⟩ (by decide)

theorem foldl_processTag_already_reduced :
    ∀ (m acc : List VisionModelTag), distinctObjects (acc ++ m) →
      (∀ t ∈ m, confidenceThreshold ≤ t.confidence) →
      m.foldl processTag acc = acc ++ m := by
  intro m
  induction m with
  | nil => intro acc _ _; simp
  | cons t rest ih =>
    intro acc hdis hconf
    have hth : confidenceThreshold ≤ t.confidence := hconf t (by simp)
    have hnone : findTag acc t.object = none := by
      rw [findTag_eq_none]
      intro e he
      exact (List.pairwise_append.mp hdis).2.2 e he t (by simp)
    have hstep : processTag acc t = acc ++ [t] := by
      simp [processTag, hnone, if_pos hth]
    rw [List.foldl_cons, hstep,
      ih (acc ++ [t]) (by simpa [List.append_assoc] using hdis)
        (fun x hx => hconf x (by simp [hx]))]
    simp

/-- Claim C9: reduction is idempotent.  Feeding the reduced tag set back
into `collectUniqueTags` (as the tag list of a single channel message,
confidences preserved) returns the same reduced tag set. -/
theorem collectUniqueTags_idempotent (summaries : List VisionModelTags) :
    collectUniqueTags [⟨"", collectUniqueTags summaries⟩] =
      collectUniqueTags summaries := by
  obtain ⟨hdis, hent, _⟩ := collectUniqueTags_reduced summaries
  have h : collectUniqueTags [⟨"", collectUniqueTags summaries⟩] =
      (collectUniqueTags summaries).foldl processTag [] := by
    simp [collectUniqueTags]
  rw [h, foldl_processTag_already_reduced _ [] (by simpa using hdis)
    (fun t ht => (hent t ht).1)]
  simp

/-- Claim C10: the reduction is a deterministic function of the observation
sequence (each name determines its entry uniquely), and an existing entry is
overwritten only by a strictly greater confidence: an observation whose
confidence merely equals (or is below) the stored one leaves the map
unchanged, so of two equal-confidence observations of one name the first
encountered is retained. -/
theorem processTag_keeps_first_on_tie :
    (∀ summaries : List VisionModelTags, ∀ t₁ ∈ collectUniqueTags summaries,
      ∀ t₂ ∈ collectUniqueTags summaries, t₁.object = t₂.object → t₁ = t₂) ∧
    (∀ tagMap tag existing, findTag tagMap tag.object = some existing →
      tag.confidence ≤ existing.confidence → processTag tagMap tag = tagMap) ∧
    (∀ tagMap tag existing, findTag tagMap tag.object = some existing →
      confidenceThreshold ≤ tag.confidence →
      existing.confidence < tag.confidence →
      processTag tagMap tag = replaceTag tagMap tag) := by
  refine ⟨?_, ?_, ?_⟩
  · intro summaries t₁ h₁ t₂ h₂ hobj
    exact mem_same_object_eq (collectUniqueTags_reduced summaries).1 h₁ h₂ hobj
  · intro tagMap tag existing hfind hle
    by_cases hth : confidenceThreshold ≤ tag.confidence
    · simp [processTag, hfind, if_pos hth, not_lt.mpr hle]
    · simp [processTag, if_neg hth]
  · intro tagMap tag existing hfind hth hgt
    simp [processTag, hfind, if_pos hth, hgt]

/-- Witness for C10: a repeated equal-confidence observation of `door`
leaves the map unchanged, keeping the first stored entry. -/
theorem processTag_keeps_first_on_tie_witness :
    processTag [⟨"door", 70⟩] ⟨"door", 70⟩ = [⟨"door", 70⟩] :=
  processTag_keeps_first_on_tie.2.1 [⟨"door", 70⟩] ⟨"door", 70⟩ ⟨"door", 70⟩
    (by decide) (by decide)

/-! ## Properties of the tile sweep -/

theorem cropXLoop_bounds {imgWidth imgHeight cropWidth cropHeight widthStep y : Nat}
    (hy : y ≤ imgHeight) :
    ∀ fuel x r,
      r ∈ cropXLoop imgWidth imgHeight cropWidth cropHeight widthStep y fuel x →
      r.x0 ≤ r.x1 ∧ r.x1 ≤ imgWidth ∧ r.y0 ≤ r.y1 ∧ r.y1 ≤ imgHeight := by
  intro fuel
  induction fuel with
  | zero => intro x r hr; simp [cropXLoop] at hr
  | succ n ih =>
    intro x r hr
    simp only [cropXLoop] at hr
    by_cases hg : x < imgWidth - widthStep
    · rw [if_pos hg] at hr
      rcases List.mem_cons.mp hr with rfl | hr
      · refine ⟨?_, ?_, ?_, ?_⟩ <;> simp [cropRectAt] <;> omega
      · exact ih (x + widthStep) r hr
    · rw [if_neg hg] at hr
      simp at hr

theorem cropYLoop_bounds {imgWidth imgHeight cropWidth cropHeight widthStep heightStep : Nat} :
    ∀ fuel y r,
      r ∈ cropYLoop imgWidth imgHeight cropWidth cropHeight widthStep heightStep fuel y →
      r.x0 ≤ r.x1 ∧ r.x1 ≤ imgWidth ∧ r.y0 ≤ r.y1 ∧ r.y1 ≤ imgHeight := by
  intro fuel
  induction fuel with
  | zero => intro y r hr; simp [cropYLoop] at hr
  | succ n ih =>
    intro y r hr
    simp only [cropYLoop] at hr
    by_cases hg : y < imgHeight - heightStep
    · rw [if_pos hg] at hr
      rcases List.mem_append.mp hr with hr | hr
      · exact cropXLoop_bounds (by omega) imgWidth 0 r hr
      · exact ih (y + heightStep) r hr
    · rw [if_neg hg] at hr
      simp at hr

/-- Claim C5: every crop rectangle generated by the tile sweep stays inside
the (possibly resized) source bounds: `x + w ≤ sourceWidth` and
`y + h ≤ sourceHeight`. -/
theorem cropImage_rects_within_bounds (imgWidth imgHeight cropWidth cropHeight : Nat)
    (r : CropRect) (hr : r ∈ cropImage imgWidth imgHeight cropWidth cropHeight) :
    r.x0 + (r.x1 - r.x0) ≤ imgWidth ∧ r.y0 + (r.y1 - r.y0) ≤ imgHeight := by
  by_cases hsmall : imgWidth ≤ cropWidth ∧ imgHeight ≤ cropHeight
  · simp only [cropImage, if_pos hsmall] at hr
    have : r = ⟨0, 0, imgWidth, imgHeight⟩ := by simpa using hr
    rw [this]
    simp
  · simp only [cropImage, if_neg hsmall] at hr
    have h := cropYLoop_bounds imgHeight 0 r hr
    omega

/-- Witness for C5: the first tile of the 2000 by 1000 scenario sweep. -/
theorem cropImage_rects_within_bounds_witness :
    (⟨0, 0, 672, 672⟩ : CropRect).x0 +
        ((⟨0, 0, 672, 672⟩ : CropRect).x1 - (⟨0, 0, 672, 672⟩ : CropRect).x0) ≤ 2000 ∧
      (⟨0, 0, 672, 672⟩ : CropRect).y0 +
        ((⟨0, 0, 672, 672⟩ : CropRect).y1 - (⟨0, 0, 672, 672⟩ : CropRect).y0) ≤ 1000 :=
  cropImage_rects_within_bounds 2000 1000 672 672 ⟨0, 0, 672, 672⟩ (by decide)

theorem cropXLoop_mem_iff {imgWidth imgHeight cropWidth cropHeight widthStep y : Nat}
    (hws : 0 < widthStep) :
    ∀ fuel x, imgWidth ≤ x + fuel * widthStep →
      ∀ r, (r ∈ cropXLoop imgWidth imgHeight cropWidth cropHeight widthStep y fuel x ↔
        ∃ j, x + j * widthStep + widthStep < imgWidth ∧
          r = cropRectAt imgWidth imgHeight cropWidth cropHeight (x + j * widthStep) y) := by
  intro fuel
  induction fuel with
  | zero =>
    intro x hx r
    simp only [Nat.zero_mul, Nat.add_zero] at hx
    simp only [cropXLoop, List.not_mem_nil, false_iff, not_exists]
    intro j hj
    exact absurd hj.1 (by omega)
  | succ n ih =>
    intro x hx r
    rw [Nat.succ_mul] at hx
    simp only [cropXLoop]
    by_cases hg : x < imgWidth - widthStep
    · rw [if_pos hg]
      have hx2 : imgWidth ≤ x + widthStep + n * widthStep := by omega
      constructor
      · intro h
        rcases List.mem_cons.mp h with rfl | h
        · exact ⟨0, by simp; omega, by simp⟩
        · obtain ⟨j, hj, hr⟩ := (ih (x + widthStep) hx2 r).mp h
          refine ⟨j + 1, by rw [Nat.succ_mul]; omega, ?_⟩
          have harg : x + (j + 1) * widthStep = x + widthStep + j * widthStep := by
            rw [Nat.succ_mul]; omega
          rw [harg]
          exact hr
      · rintro ⟨j, hj, hr⟩
        cases j with
        | zero =>
          simp only [Nat.zero_mul, Nat.add_zero] at hr
          exact List.mem_cons.mpr (Or.inl hr)
        | succ j =>
          refine List.mem_cons.mpr (Or.inr ((ih (x + widthStep) hx2 r).mpr ⟨j, ?_, ?_⟩))
          · rw [Nat.succ_mul] at hj; omega
          · have harg : x + (j + 1) * widthStep = x + widthStep + j * widthStep := by
              rw [Nat.succ_mul]; omega
            rw [harg] at hr
            exact hr
    · rw [if_neg hg]
      simp only [List.not_mem_nil, false_iff, not_exists]
      intro j hj
      exact absurd hj.1 (by omega)

theorem cropYLoop_mem_iff {imgWidth imgHeight cropWidth cropHeight widthStep heightStep : Nat}
    (hhs : 0 < heightStep) :
    ∀ fuel y, imgHeight ≤ y + fuel * heightStep →
      ∀ r, (r ∈ cropYLoop imgWidth imgHeight cropWidth cropHeight widthStep heightStep fuel y ↔
        ∃ i, y + i * heightStep + heightStep < imgHeight ∧
          r ∈ cropXLoop imgWidth imgHeight cropWidth cropHeight widthStep
            (y + i * heightStep) imgWidth 0) := by
  intro fuel
  induction fuel with
  | zero =>
    intro y hy r
    simp only [Nat.zero_mul, Nat.add_zero] at hy
    simp only [cropYLoop, List.not_mem_nil, false_iff, not_exists]
    intro i hi
    exact absurd hi.1 (by omega)
  | succ n ih =>
    intro y hy r
    rw [Nat.succ_mul] at hy
    simp only [cropYLoop]
    by_cases hg : y < imgHeight - heightStep
    · rw [if_pos hg]
      have hy2 : imgHeight ≤ y + heightStep + n * heightStep := by omega
      constructor
      · intro h
        rcases List.mem_append.mp h with h | h
        · exact ⟨0, by simp; omega, by simpa using h⟩
        · obtain ⟨i, hi, hr⟩ := (ih (y + heightStep) hy2 r).mp h
          refine ⟨i + 1, by rw [Nat.succ_mul]; omega, ?_⟩
          have harg : y + (i + 1) * heightStep = y + heightStep + i * heightStep := by
            rw [Nat.succ_mul]; omega
          rw [harg]
          exact hr
      · rintro ⟨i, hi, hr⟩
        cases i with
        | zero =>
          simp only [Nat.zero_mul, Nat.add_zero] at hr
          exact List.mem_append.mpr (Or.inl hr)
        | succ i =>
          refine List.mem_append.mpr (Or.inr ((ih (y + heightStep) hy2 r).mpr ⟨i, ?_, ?_⟩))
          · rw [Nat.succ_mul] at hi; omega
          · have harg : y + (i + 1) * heightStep = y + heightStep + i * heightStep := by
              rw [Nat.succ_mul]; omega
            rw [harg] at hr
            exact hr
    · rw [if_neg hg]
      simp only [List.not_mem_nil, false_iff, not_exists]
      intro i hi
      exact absurd hi.1 (by omega)

theorem cropImage_mem_char {imgWidth imgHeight cropWidth cropHeight : Nat}
    (hws : 0 < cropWidth / 2) (hhs : 0 < cropHeight / 2)
    (hbig : ¬(imgWidth ≤ cropWidth ∧ imgHeight ≤ cropHeight)) (r : CropRect) :
    r ∈ cropImage imgWidth imgHeight cropWidth cropHeight ↔
      sweepRectSpec imgWidth imgHeight cropWidth cropHeight r := by
  have hyfuel : imgHeight ≤ 0 + imgHeight * (cropHeight / 2) := by
    have := Nat.le_mul_of_pos_right imgHeight hhs
    omega
  have hxfuel : imgWidth ≤ 0 + imgWidth * (cropWidth / 2) := by
    have := Nat.le_mul_of_pos_right imgWidth hws
    omega
  simp only [cropImage, if_neg hbig]
  rw [cropYLoop_mem_iff hhs imgHeight 0 hyfuel r]
  constructor
  · rintro ⟨i, hi, hx⟩
    obtain ⟨j, hj, hr⟩ := (cropXLoop_mem_iff hws imgWidth 0 hxfuel r).mp hx
    exact ⟨i, j, by simpa using hi, by simpa using hj, by simpa using hr⟩
  · rintro ⟨i, j, hi, hj, hr⟩
    refine ⟨i, by simpa using hi,
      (cropXLoop_mem_iff hws imgWidth 0 hxfuel r).mpr ⟨j, by simpa using hj, ?_⟩⟩
    simpa using hr

/-- Claim C3: in tile mode, for images exceeding the tile size, the sweep
steps by half the tile dimension (`cropWidth / 2`, `cropHeight / 2`,
exactly 50 percent for the even default 672), emits exactly the rectangles
of the row/column sweep that runs while `y < height - step` (equivalently
`y + step < height`) and `x` likewise, clamped at the source edge; the
2000 by 1000 source with 672 by 672 tiles and a 2,000,000 pixel budget is
not resized and yields the ten 336-stepped rectangles clipped at the
right/bottom edge. -/
theorem cropImage_tile_sweep_char :
    (∀ imgWidth imgHeight cropWidth cropHeight : Nat,
      0 < cropWidth / 2 → 0 < cropHeight / 2 →
      ¬(imgWidth ≤ cropWidth ∧ imgHeight ≤ cropHeight) →
      ∀ r : CropRect, r ∈ cropImage imgWidth imgHeight cropWidth cropHeight ↔
        sweepRectSpec imgWidth imgHeight cropWidth cropHeight r) ∧
    tileResizeNeeded 2000 1000 2000000 = false ∧
    cropImage 2000 1000 672 672 =
      [⟨0, 0, 672, 672⟩, ⟨336, 0, 1008, 672⟩, ⟨672, 0, 1344, 672⟩,
       ⟨1008, 0, 1680, 672⟩, ⟨1344, 0, 2000, 672⟩,
       ⟨0, 336, 672, 1000⟩, ⟨336, 336, 1008, 1000⟩, ⟨672, 336, 1344, 1000⟩,
       ⟨1008, 336, 1680, 1000⟩, ⟨1344, 336, 2000, 1000⟩] := by
  refine ⟨?_, by decide, by decide⟩
  intro imgWidth imgHeight cropWidth cropHeight hws hhs hbig r
  exact cropImage_mem_char hws hhs hbig r

/-- Witness for C3: the first rectangle of the 2000 by 1000 sweep satisfies
the characterization. -/
theorem cropImage_tile_sweep_char_witness :
    (⟨0, 0, 672, 672⟩ : CropRect) ∈ cropImage 2000 1000 672 672 ↔
      sweepRectSpec 2000 1000 672 672 ⟨0, 0, 672, 672⟩ :=
  cropImage_tile_sweep_char.1 2000 1000 672 672 (by decide) (by decide) (by decide)
    ⟨0, 0, 672, 672⟩

/-- Counterexample to claim C2 as stated: a 1000 by 300 source with the
default 672 by 672 tiles is not smaller than the tile size (its width
exceeds the crop width), yet `cropImage` returns an empty tile set: the
outer sweep never runs because the height 300 does not exceed the 336
pixel step. -/
theorem cropImage_empty_counterexample :
    cropImage 1000 300 672 672 = [] ∧ ¬(1000 ≤ 672 ∧ 300 ≤ 672) :=
  ⟨by decide, by decide⟩

/-- Claim C2 (amended): the tile set is non-empty when the source is
smaller than the configured tile size (where it degenerates to the single
whole-image tile) or when both source dimensions strictly exceed the half
tile steps; sources with one dimension above the tile size but the other
at most the corresponding step produce an empty tile set. -/
theorem cropImage_nonempty_amended (imgWidth imgHeight cropWidth cropHeight : Nat)
    (h : (imgWidth ≤ cropWidth ∧ imgHeight ≤ cropHeight) ∨
      (0 < cropWidth / 2 ∧ 0 < cropHeight / 2 ∧
        cropWidth / 2 < imgWidth ∧ cropHeight / 2 < imgHeight)) :
    cropImage imgWidth imgHeight cropWidth cropHeight ≠ [] ∧
      (imgWidth ≤ cropWidth ∧ imgHeight ≤ cropHeight →
        cropImage imgWidth imgHeight cropWidth cropHeight =
          [⟨0, 0, imgWidth, imgHeight⟩]) := by
  by_cases hsmall : imgWidth ≤ cropWidth ∧ imgHeight ≤ cropHeight
  · refine ⟨?_, fun _ => ?_⟩ <;> simp [cropImage, if_pos hsmall]
  · rcases h with h | h
    · exact absurd h hsmall
    · obtain ⟨hws, hhs, hw, hh⟩ := h
      refine ⟨?_, fun hs => absurd hs hsmall⟩
      intro hempty
      have hmem : cropRectAt imgWidth imgHeight cropWidth cropHeight 0 0 ∈
          cropImage imgWidth imgHeight cropWidth cropHeight := by
        rw [cropImage_mem_char hws hhs hsmall]
        exact ⟨0, 0, by simpa using hh, by simpa using hw, by simp⟩
      rw [hempty] at hmem
      simp at hmem

/-- Witness for C2 (amended) at a 1000 by 800 source with 672 by 672
tiles. -/
theorem cropImage_nonempty_amended_witness :
    cropImage 1000 800 672 672 ≠ [] ∧
      (1000 ≤ 672 ∧ 800 ≤ 672 →
        cropImage 1000 800 672 672 = [⟨0, 0, 1000, 800⟩]) :=
  cropImage_nonempty_amended 1000 800 672 672 (Or.inr (by decide))

/-- Claim C8: when both source dimensions are at most the configured crop
dimensions, the tile set is exactly one rectangle covering the whole
(possibly resized) image. -/
theorem cropImage_small_single_tile (imgWidth imgHeight cropWidth cropHeight : Nat)
    (hw : imgWidth ≤ cropWidth) (hh : imgHeight ≤ cropHeight) :
    cropImage imgWidth imgHeight cropWidth cropHeight =
      [⟨0, 0, imgWidth, imgHeight⟩] := by
  simp only [cropImage]
  rw [if_pos (And.intro hw hh)]

/-- Witness for C8 at a 600 by 500 source with 672 by 672 tiles. -/
theorem cropImage_small_single_tile_witness :
    cropImage 600 500 672 672 = [⟨0, 0, 600, 500⟩] :=
  cropImage_small_single_tile 600 500 672 672 (by decide) (by decide)

/-! ## Properties of the summary-response parser -/

theorem splitLines_ne_nil (s : List Char) : splitLines s ≠ [] := by
  induction s with
  | nil => simp [splitLines]
  | cons c rest ih =>
    simp only [splitLines]
    by_cases h : c = '\n'
    · rw [if_pos h]; simp
    · rw [if_neg h]
      cases hr : splitLines rest with
      | nil => exact absurd hr ih
      | cons l ls => simp [consHead]

theorem consHead_length (c : Char) (r : List (List Char)) (h : r ≠ []) :
    (consHead c r).length = r.length := by
  cases r with
  | nil => exact absurd rfl h
  | cons l ls => simp [consHead]

theorem splitLines_short_iff (s : List Char) :
    (splitLines s).length < 2 ↔ '\n' ∉ s := by
  induction s with
  | nil => simp [splitLines]
  | cons c rest ih =>
    by_cases h : c = '\n'
    · simp only [splitLines, if_pos h, List.length_cons]
      have h1 : 1 ≤ (splitLines rest).length :=
        List.length_pos.mpr (splitLines_ne_nil rest)
      constructor
      · intro hlen; omega
      · intro hmem
        exact absurd (by rw [h]; exact List.mem_cons_self _ _) hmem
    · simp only [splitLines, if_neg h]
      rw [consHead_length c _ (splitLines_ne_nil rest), ih]
      constructor
      · intro hmem hcontra
        rcases List.mem_cons.mp hcontra with hc | hcontra
        · exact h hc.symm
        · exact hmem hcontra
      · intro hmem hcontra
        exact hmem (List.mem_cons_of_mem c hcontra)

/-- Claim C4: the free-text summary-response parser fails exactly when the
response has fewer than two lines, i.e. contains no newline; otherwise the
tags are the first line lower-cased, split on a comma-space and trimmed,
and the caption is the trimmed last line.  The two-line scenario response
parses to the tags `door, window` and the caption, and a one-line response
is a parse failure. -/
theorem parseSummaryResponse_spec :
    (∀ response : List Char,
      parseSummaryResponse response = none ↔ '\n' ∉ response) ∧
    (∀ response : List Char, ¬(splitLines response).length < 2 →
      parseSummaryResponse response =
        some ((splitTags (toLowerChars (splitLines response).headI)).map trimChars,
          trimChars ((splitLines response).getLastD []))) ∧
    parseSummaryResponse "door, window\n\nA red car with an open door.".toList =
      some (["door".toList, "window".toList],
        "A red car with an open door.".toList) ∧
    parseSummaryResponse "one line response".toList = none := by
  refine ⟨?_, ?_, by decide, by decide⟩
  · intro response
    rw [← splitLines_short_iff]
    simp only [parseSummaryResponse]
    by_cases h : (splitLines response).length < 2
    · simp [if_pos h, h]
    · simp [if_neg h, h]
  · intro response h
    simp only [parseSummaryResponse]
    rw [if_neg h]

/-- Witness for C4 on the two-line response `a` newline `b`. -/
theorem parseSummaryResponse_spec_witness :
    parseSummaryResponse "a\nb".toList =
      some ((splitTags (toLowerChars (splitLines "a\nb".toList).headI)).map trimChars,
        trimChars ((splitLines "a\nb".toList).getLastD [])) :=
  parseSummaryResponse_spec.2.1 "a\nb".toList (by decide)

/-! ## Properties of the summary stage of cmd tag `main` -/

/-- Counterexample to claim C7 as stated: with the summary transport call
failed (`none`) and one tile tag response delivered, `main` still produces
a result for the image, whose tags come from the per-tile calls; processing
is not fatal and the tag stage is not suppressed. -/
theorem mainPipeline_continues_after_summary_failure :
    mainPipeline "car.jpg" none [⟨"", [⟨"door", 60⟩]⟩] =
      ⟨"car.jpg", "", "", [⟨"door", 60⟩]⟩ ∧
    (mainPipeline "car.jpg" none [⟨"", [⟨"door", 60⟩]⟩]).tags ≠ [] :=
  ⟨by decide, by decide⟩

/-- Claim C7 (amended): if the transport call for the summary stage fails,
processing of the image continues with the zero-value summary: the subject
and description are empty strings, the per-tile tag calls proceed (with an
empty subject in their prompt), and a result holding their reduced tags is
still produced. -/
theorem mainPipeline_zero_value_summary (file : String)
    (tagResponses : List VisionModelTags) :
    mainPipeline file none tagResponses =
      ⟨file, "", "", collectUniqueTags tagResponses⟩ := rfl
